import Mathlib

/-!
# Verification of `training/kd_train.py` (knowledge-distillation trainer)

This file gives a shallow embedding of the core of the knowledge-distillation
trainer `training/kd_train.py` and proves properties of it.

Embedding conventions:
* JSON records (`sample` dictionaries) are modelled as Lean structures with
  `Option` fields for possibly-missing keys; JSON objects used as string-keyed
  dictionaries become association lists, and `dict.get` becomes `dictGet`.
* JSON numbers are modelled as rationals (`ℚ`) in the data-handling code
  (the example adapter `KDDataset.__getitem__` and the ground-truth assembly
  of `evaluate_model`), which keeps those definitions executable.
* The tensor mathematics of `kd_loss` (`torch` operations: `**`, `clamp`,
  `F.log_softmax`, `F.kl_div`, `F.binary_cross_entropy_with_logits`) is
  modelled over the reals, with batches as functions `Fin B → Fin n → ℝ`.
  `F.kl_div(input, target)` computes pointwise `target * (log target - input)`
  where entries with non-positive `target` contribute `0`, and the
  `batchmean` reduction divides the total by the batch size `B`.
  `F.binary_cross_entropy_with_logits` computes pointwise
  `-(y * log σ(z) + (1 - y) * log (1 - σ(z)))` with `σ` the logistic sigmoid,
  and the `mean` reduction divides by the element count `B * n`.
* The sklearn metrics (`classification_report` and friends with
  `zero_division=0`) are modelled per label by `precisionLabel`,
  `recallLabel`, `f1Label` over `ℚ`.
-/

open Finset

/-! ## The label schema -/

/-- The list `LABEL_KEYS` from `kd_train.py`: the fixed ordered label schema. -/
def LABEL_KEYS : List String :=
  ["humbleBragging",
   "excessiveEmojis",
   "engagementBait",
   "fakeStories",
   "companyCulture",
   "personalAnecdotes",
   "hiringStories",
   "basicDecencyPraising",
   "minorAchievements",
   "buzzwordOveruse",
   "linkedinCliches",
   "virtueSignaling",
   "professionalOversharing",
   "mundaneLifeLessons",
   "overall_cringe"]

/-- The width of the label schema (`len(LABEL_KEYS)` = 15). -/
def numLabels : ℕ := 15

/-- The empty string, the default for missing text fields. -/
def emptyString : String := ""

/-- The label name at position `i` of the schema. -/
def labelKey (i : Fin numLabels) : String := LABEL_KEYS.getD i emptyString

/-! ## Raw JSONL records -/

/-- The `"post"` sub-object of a record: `{"text": str}` with `text`
possibly missing. -/
structure Post where
  text : Option String
  deriving Repr, DecidableEq

/-- The `"teacher"` sub-object of a record: `{"labels": {name: prob, ...}}`
with the `labels` object possibly missing.  The label map is an association
list from label names to JSON numbers (rationals). -/
structure Teacher where
  labels : Option (List (String × ℚ))
  deriving Repr, DecidableEq

/-- One raw JSONL record (`sample`), with every key possibly missing. -/
structure RawSample where
  post : Option Post
  teacher : Option Teacher
  human_labels : Option (List (String × Bool))
  deriving Repr, DecidableEq

/-- Python `d.get(k)` on a string-keyed dictionary modelled as an
association list: the value at the first matching key, if any. -/
def dictGet {α : Type} (d : List (String × α)) (k : String) : Option α :=
  (d.find? fun kv => kv.1 == k).map fun kv => kv.2

/-! ## The example adapter (`KDDataset.__getitem__`) -/

/-- The adapter line `text = sample.get("post", {}).get("text", "")`. -/
def itemText (s : RawSample) : String :=
  ((s.post.getD { text := none }).text).getD emptyString

/-- The adapter line `labels = sample.get("teacher", {}).get("labels", {})`. -/
def teacherLabelsDict (s : RawSample) : List (String × ℚ) :=
  ((s.teacher.getD { labels := none }).labels).getD []

/-- The adapter line `teacher_probs = [float(labels.get(label, 0.0)) for label in LABEL_KEYS]`. -/
def teacherProbs (s : RawSample) (i : Fin numLabels) : ℚ :=
  (dictGet (teacherLabelsDict s) (labelKey i)).getD 0

/-- Python truthiness of `hard_labels = sample.get("human_labels")`:
present and non-empty. -/
def humanTruthy (s : RawSample) : Bool :=
  match s.human_labels with
  | none => false
  | some d => !d.isEmpty

/-- The `item["labels"]` vector of `KDDataset.__getitem__`:
`[1 if hard_labels.get(label) else 0 for label in LABEL_KEYS]` when
`hard_labels` is truthy, else a copy of `teacher_probs`. -/
def itemLabels (s : RawSample) (i : Fin numLabels) : ℚ :=
  if humanTruthy s then
    (if (dictGet (s.human_labels.getD []) (labelKey i)).getD false then 1 else 0)
  else teacherProbs s i

/-! ## Evaluation ground truth (`evaluate_model`, `hard_labels` array) -/

/-- One entry of the `hard_labels` array of `evaluate_model`:
`1 if sample.get("human_labels", {}).get(label) else
 int(sample.get("teacher", {}).get("labels", {}).get(label, 0) >= threshold)`. -/
def evalGroundTruth (s : RawSample) (threshold : ℚ) (i : Fin numLabels) : ℤ :=
  if (dictGet (s.human_labels.getD []) (labelKey i)).getD false then 1
  else if threshold ≤ (dictGet (teacherLabelsDict s) (labelKey i)).getD 0 then 1
  else 0

/-! ## Per-label metrics (sklearn with `zero_division=0`)

`classification_report` / `precision_recall_fscore_support` on a multilabel
indicator pair treat each column (label) as a binary problem with positive
class `1`; with `zero_division=0` any `0/0` is reported as `0`. -/

/-- True positives of label `j`: rows where truth and prediction are both 1. -/
def truePos {m n : ℕ} (truth preds : Fin m → Fin n → Bool) (j : Fin n) : ℕ :=
  (univ.filter fun i => truth i j = true ∧ preds i j = true).card

/-- False positives of label `j`. -/
def falsePos {m n : ℕ} (truth preds : Fin m → Fin n → Bool) (j : Fin n) : ℕ :=
  (univ.filter fun i => truth i j = false ∧ preds i j = true).card

/-- False negatives of label `j`. -/
def falseNeg {m n : ℕ} (truth preds : Fin m → Fin n → Bool) (j : Fin n) : ℕ :=
  (univ.filter fun i => truth i j = true ∧ preds i j = false).card

/-- sklearn precision of label `j` with `zero_division=0`:
`tp / (tp + fp)`, and `0` when there are no predicted positives. -/
def precisionLabel {m n : ℕ} (truth preds : Fin m → Fin n → Bool) (j : Fin n) : ℚ :=
  if truePos truth preds j + falsePos truth preds j = 0 then 0
  else (truePos truth preds j : ℚ) / ((truePos truth preds j : ℚ) + (falsePos truth preds j : ℚ))

/-- sklearn recall of label `j` with `zero_division=0`:
`tp / (tp + fn)`, and `0` when there are no positives in the ground truth. -/
def recallLabel {m n : ℕ} (truth preds : Fin m → Fin n → Bool) (j : Fin n) : ℚ :=
  if truePos truth preds j + falseNeg truth preds j = 0 then 0
  else (truePos truth preds j : ℚ) / ((truePos truth preds j : ℚ) + (falseNeg truth preds j : ℚ))

/-- sklearn F1 of label `j` with `zero_division=0`: the harmonic mean of
precision and recall, and `0` when `precision + recall = 0`. -/
def f1Label {m n : ℕ} (truth preds : Fin m → Fin n → Bool) (j : Fin n) : ℚ :=
  if precisionLabel truth preds j + recallLabel truth preds j = 0 then 0
  else 2 * precisionLabel truth preds j * recallLabel truth preds j /
    (precisionLabel truth preds j + recallLabel truth preds j)

/-! ## The distillation loss (`kd_loss`) over the reals -/

/-- Row-wise `F.log_softmax(w, dim=-1)`:
`w i - log (∑ j, exp (w j))`. -/
noncomputable def logSoftmax {n : ℕ} (w : Fin n → ℝ) (i : Fin n) : ℝ :=
  w i - Real.log (∑ j, Real.exp (w j))

/-- Pointwise `F.kl_div(input, target)` (non-log target):
`target * (log target - input)` where non-positive `target` contributes 0. -/
noncomputable def klDivPoint (input target : ℝ) : ℝ :=
  if 0 < target then target * (Real.log target - input) else 0

/-- The logistic sigmoid `torch.sigmoid`. -/
noncomputable def sigmoid (z : ℝ) : ℝ := 1 / (1 + Real.exp (-z))

/-- Pointwise `F.binary_cross_entropy_with_logits(z, y)`:
`-(y * log σ(z) + (1 - y) * log (1 - σ(z)))`. -/
noncomputable def bcePoint (z y : ℝ) : ℝ :=
  -(y * Real.log (sigmoid z) + (1 - y) * Real.log (1 - sigmoid z))

/-- The sharpened, renormalized teacher row of `kd_loss`:
`teacher_soft = teacher_probs ** (1.0 / t)` followed by
`teacher_soft / teacher_soft.sum(dim=-1, keepdim=True).clamp(min=1e-9)`. -/
noncomputable def teacherSoft {n : ℕ} (p : Fin n → ℝ) (t : ℝ) (i : Fin n) : ℝ :=
  p i ^ (1 / t) / max (∑ j, p j ^ (1 / t)) 1e-9

/-- The KL component of `kd_loss`:
`F.kl_div(F.log_softmax(student_logits / t), teacher_soft,
reduction="batchmean") * (t * t)`. -/
noncomputable def klTerm {B n : ℕ} (student_logits teacher_probs : Fin B → Fin n → ℝ)
    (t : ℝ) : ℝ :=
  ((∑ b, ∑ i, klDivPoint (logSoftmax (fun j => student_logits b j / t) i)
      (teacherSoft (teacher_probs b) t i)) / (B : ℝ)) * (t * t)

/-- The BCE component of `kd_loss`:
`F.binary_cross_entropy_with_logits(student_logits, labels, reduction="mean")`. -/
noncomputable def ceTerm {B n : ℕ} (student_logits labels : Fin B → Fin n → ℝ) : ℝ :=
  (∑ b, ∑ i, bcePoint (student_logits b i) (labels b i)) / ((B : ℝ) * (n : ℝ))

/-- The function `kd_loss(student_logits, teacher_probs, labels, temperature,
alpha_kl, alpha_ce)` from `kd_train.py`, for a batch of `B` examples over `n`
labels. -/
noncomputable def kd_loss {B n : ℕ} (student_logits teacher_probs labels : Fin B → Fin n → ℝ)
    (temperature alpha_kl alpha_ce : ℝ) : ℝ :=
  let t := temperature
  let kl := ((∑ b, ∑ i, klDivPoint (logSoftmax (fun j => student_logits b j / t) i)
      (teacherSoft (teacher_probs b) t i)) / (B : ℝ)) * (t * t)
  let ce := (∑ b, ∑ i, bcePoint (student_logits b i) (labels b i)) / ((B : ℝ) * (n : ℝ))
  alpha_kl * kl + alpha_ce * ce

/-- Shannon entropy of a (sub)probability vector, with the `0 * log 0 = 0`
convention (automatic from `Real.log 0 = 0`). -/
noncomputable def shannonEntropy {n : ℕ} (v : Fin n → ℝ) : ℝ :=
  -∑ i, v i * Real.log (v i)

/-! ## Spec-side definitions for the loss decomposition (claim C1)

These three definitions follow the wording of the specification ("KL term =
KL-divergence(student_log_probs, teacher_soft) averaged over the batch",
"CE term = mean elementwise binary-cross-entropy-with-logits", "teacherSoft
is obtained by raising each teacher probability to the power 1/T elementwise
and dividing by the per-example sum floored at 1e-9"); they are compared with
the source-side `kd_loss` in the decomposition theorem. -/

/-- Spec-side batch-mean KL divergence of a log-probability batch `lq`
against a target batch `p`. -/
noncomputable def klBatchmeanSpec {B n : ℕ} (lq p : Fin B → Fin n → ℝ) : ℝ :=
  (∑ b, ∑ i, klDivPoint (lq b i) (p b i)) / (B : ℝ)

/-- Spec-side mean binary cross-entropy with logits. -/
noncomputable def bceMeanSpec {B n : ℕ} (z y : Fin B → Fin n → ℝ) : ℝ :=
  (∑ b, ∑ i, bcePoint (z b i) (y b i)) / ((B : ℝ) * (n : ℝ))

/-- Spec-side sharpened teacher batch: each teacher probability raised to the
power `1/T`, divided by the per-example sum floored at `1e-9`. -/
noncomputable def teacherSoftSpec {B n : ℕ} (p : Fin B → Fin n → ℝ) (t : ℝ)
    (b : Fin B) (i : Fin n) : ℝ :=
  p b i ^ (1 / t) / max (∑ j, p b j ^ (1 / t)) 1e-9

/-! ## Concrete sample records used as test inputs -/

/-- A record carrying only a human label. -/
def sampleHumanOnly : RawSample :=
  { post := none, teacher := none, human_labels := some [("humbleBragging", true)] }

/-- A record with a teacher probability and a human label on another label. -/
def sampleMixed : RawSample :=
  { post := none, teacher := some { labels := some [("engagementBait", 9/10)] },
    human_labels := some [("humbleBragging", true)] }

/-- The empty record. -/
def sampleEmpty : RawSample :=
  { post := none, teacher := none, human_labels := none }

/-- A record whose teacher block carries an out-of-range value. -/
def sampleOutOfRange : RawSample :=
  { post := none, teacher := some { labels := some [("humbleBragging", 2)] },
    human_labels := none }

/-! ## Claims about the example adapter and the evaluator ground truth -/

/-- C2: for every raw record, when `record.human_labels` is truthy (present
and non-empty) the supervision target `item["labels"]` is the binary vector
whose `i`-th entry is 1 if `human_labels` marks label `i` truthy and 0
otherwise; when it is not truthy (absent or empty) the supervision target
equals `teacher_probs` entry by entry. -/
theorem itemLabels_supervision_policy (s : RawSample) :
    (∀ d, s.human_labels = some d → d ≠ [] →
      ∀ i, itemLabels s i =
        if (dictGet d (labelKey i)).getD false then 1 else 0) ∧
    ((s.human_labels = none ∨ s.human_labels = some []) →
      ∀ i, itemLabels s i = teacherProbs s i) := by
  constructor
  · intro d hd hne i
    have htr : humanTruthy s = true := by
      simp [humanTruthy, hd, List.isEmpty_iff, hne]
    simp [itemLabels, htr, hd]
  · rintro (h | h) i <;> simp [itemLabels, humanTruthy, h]

theorem itemLabels_supervision_policy_witness :
    sampleHumanOnly.human_labels = some [("humbleBragging", true)] ∧
    itemLabels sampleHumanOnly ⟨0, by norm_num [numLabels]⟩ = 1 := by
  refine ⟨rfl, ?_⟩
  have h := (itemLabels_supervision_policy sampleHumanOnly).1
    [("humbleBragging", true)] rfl (by simp) ⟨0, by norm_num [numLabels]⟩
  rw [h]
  rfl

/-- C3: for every example, threshold and label index `i`, the evaluator's
ground-truth entry is 0 or 1, and it is 1 exactly when `human_labels` maps
label `i` to a truthy value, or else the teacher probability for label `i`
(0 when missing) is at least the positive threshold. -/
theorem evalGroundTruth_policy (s : RawSample) (threshold : ℚ) (i : Fin numLabels) :
    (evalGroundTruth s threshold i = 0 ∨ evalGroundTruth s threshold i = 1) ∧
    (evalGroundTruth s threshold i = 1 ↔
      ((dictGet (s.human_labels.getD []) (labelKey i)).getD false = true ∨
        threshold ≤ teacherProbs s i)) := by
  unfold evalGroundTruth
  split_ifs with h1 h2 <;>
    simp_all [teacherProbs]

/-- C9: for every example whose `human_labels` is truthy and every label `i`
that human review did not mark truthy but whose teacher probability meets the
positive threshold, the training supervision target at `i` is 0 while the
evaluation ground-truth entry at `i` is 1. -/
theorem supervision_vs_eval_divergence (s : RawSample) (threshold : ℚ)
    (i : Fin numLabels)
    (htruthy : humanTruthy s = true)
    (hmark : (dictGet (s.human_labels.getD []) (labelKey i)).getD false = false)
    (hteach : threshold ≤ teacherProbs s i) :
    itemLabels s i = 0 ∧ evalGroundTruth s threshold i = 1 := by
  refine ⟨by simp [itemLabels, htruthy, hmark], ?_⟩
  have h2 : threshold ≤ (dictGet (teacherLabelsDict s) (labelKey i)).getD 0 := hteach
  simp [evalGroundTruth, hmark, h2]

theorem supervision_vs_eval_divergence_witness :
    humanTruthy sampleMixed = true ∧
    itemLabels sampleMixed ⟨2, by norm_num [numLabels]⟩ = 0 ∧
    evalGroundTruth sampleMixed (1/2) ⟨2, by norm_num [numLabels]⟩ = 1 := by
  refine ⟨rfl, ?_⟩
  refine supervision_vs_eval_divergence sampleMixed (1/2)
    ⟨2, by norm_num [numLabels]⟩ rfl ?_ ?_
  · simp [sampleMixed, dictGet, List.find?, labelKey, LABEL_KEYS, numLabels]
  · simp [teacherProbs, teacherLabelsDict, sampleMixed, dictGet, List.find?,
      labelKey, LABEL_KEYS, numLabels]
    norm_num

/-- C7 (amended): the example adapter is total on every raw record; the text
defaults to the empty string when the post or its text is missing;
`teacherProbs` has a (typed) entry for each of the 15 schema labels, each
entry defaulting to 0 when the label key is missing; and every entry lies in
[0,1] provided the teacher label values present in the record lie in [0,1]. -/
theorem teacherProbs_defaults (s : RawSample)
    (hvals : ∀ kv ∈ teacherLabelsDict s, 0 ≤ kv.2 ∧ kv.2 ≤ 1) :
    (s.post = none → itemText s = emptyString) ∧
    (∀ pp, s.post = some pp → pp.text = none → itemText s = emptyString) ∧
    (∀ i, dictGet (teacherLabelsDict s) (labelKey i) = none → teacherProbs s i = 0) ∧
    (∀ i, 0 ≤ teacherProbs s i ∧ teacherProbs s i ≤ 1) := by
  refine ⟨fun h => by simp [itemText, h], fun pp h ht => by simp [itemText, h, ht],
    fun i h => by simp [teacherProbs, h], fun i => ?_⟩
  unfold teacherProbs
  cases h : dictGet (teacherLabelsDict s) (labelKey i) with
  | none => simp
  | some v =>
    obtain ⟨kv, hfind, hv⟩ := Option.map_eq_some'.mp h
    have hmem : kv ∈ teacherLabelsDict s := List.mem_of_find?_eq_some hfind
    have := hvals kv hmem
    simpa [hv] using this

theorem teacherProbs_defaults_witness :
    (∀ kv ∈ teacherLabelsDict sampleEmpty, 0 ≤ kv.2 ∧ kv.2 ≤ 1) ∧
    (∀ i, 0 ≤ teacherProbs sampleEmpty i ∧ teacherProbs sampleEmpty i ≤ 1) := by
  have h := teacherProbs_defaults sampleEmpty (by simp [teacherLabelsDict, sampleEmpty])
  exact ⟨by simp [teacherLabelsDict, sampleEmpty], h.2.2.2⟩

/-- C7 counterexample: a record whose teacher block assigns the value 2 to
`humbleBragging` yields a `teacherProbs` entry equal to 2, outside [0,1]:
the adapter applies no clamping to present values. -/
theorem teacherProbs_range_counterexample :
    teacherProbs sampleOutOfRange ⟨0, by norm_num [numLabels]⟩ = 2 ∧
    ¬ (teacherProbs sampleOutOfRange ⟨0, by norm_num [numLabels]⟩ ≤ 1) := by
  constructor <;> decide

/-! ## Claim about the evaluation metrics -/

/-- C8: if the hard prediction matrix equals the ground-truth matrix, every
label with at least one positive ground-truth example has per-label F1 = 1;
and a label with zero positive ground-truth examples yields precision,
recall and F1 equal to 0 (zero division suppressed), the computation being
total. -/
theorem metrics_perfect_and_zero_support {m n : ℕ}
    (truth preds : Fin m → Fin n → Bool) (j : Fin n) :
    ((preds = truth ∧ ∃ i, truth i j = true) → f1Label truth preds j = 1) ∧
    ((∀ i, truth i j = false) →
      precisionLabel truth preds j = 0 ∧ recallLabel truth preds j = 0 ∧
        f1Label truth preds j = 0) := by
  constructor
  · rintro ⟨hpe, i, hi⟩
    subst hpe
    have hfp : falsePos preds preds j = 0 := by
      rw [falsePos, Finset.card_eq_zero, Finset.eq_empty_iff_forall_not_mem]
      intro x hx
      rw [Finset.mem_filter] at hx
      exact absurd (hx.2.1 ▸ hx.2.2) (by simp)
    have hfn : falseNeg preds preds j = 0 := by
      rw [falseNeg, Finset.card_eq_zero, Finset.eq_empty_iff_forall_not_mem]
      intro x hx
      rw [Finset.mem_filter] at hx
      exact absurd (hx.2.1 ▸ hx.2.2) (by simp)
    have htp : 0 < truePos preds preds j := by
      rw [truePos, Finset.card_pos]
      exact ⟨i, Finset.mem_filter.mpr ⟨Finset.mem_univ i, hi, hi⟩⟩
    have hp : precisionLabel preds preds j = 1 := by
      rw [precisionLabel, hfp, if_neg (by omega)]
      push_cast
      rw [add_zero, div_self (by exact_mod_cast htp.ne')]
    have hr : recallLabel preds preds j = 1 := by
      rw [recallLabel, hfn, if_neg (by omega)]
      push_cast
      rw [add_zero, div_self (by exact_mod_cast htp.ne')]
    rw [f1Label, hp, hr]
    norm_num
  · intro hz
    have htp : truePos truth preds j = 0 := by
      rw [truePos, Finset.card_eq_zero, Finset.eq_empty_iff_forall_not_mem]
      intro x hx
      rw [Finset.mem_filter] at hx
      exact absurd hx.2.1 (by simp [hz x])
    have hfn : falseNeg truth preds j = 0 := by
      rw [falseNeg, Finset.card_eq_zero, Finset.eq_empty_iff_forall_not_mem]
      intro x hx
      rw [Finset.mem_filter] at hx
      exact absurd hx.2.1 (by simp [hz x])
    have hp : precisionLabel truth preds j = 0 := by
      rw [precisionLabel, htp]
      split_ifs <;> simp
    have hr : recallLabel truth preds j = 0 := by
      rw [recallLabel, htp, hfn, if_pos rfl]
    refine ⟨hp, hr, ?_⟩
    rw [f1Label, hp, hr]
    norm_num

theorem metrics_perfect_and_zero_support_witness :
    f1Label (fun (_ : Fin 1) (_ : Fin 1) => true) (fun _ _ => true) ⟨0, one_pos⟩ = 1 ∧
    (precisionLabel (fun (_ : Fin 1) (_ : Fin 1) => false) (fun _ _ => true) ⟨0, one_pos⟩ = 0 ∧
      recallLabel (fun (_ : Fin 1) (_ : Fin 1) => false) (fun _ _ => true) ⟨0, one_pos⟩ = 0 ∧
      f1Label (fun (_ : Fin 1) (_ : Fin 1) => false) (fun _ _ => true) ⟨0, one_pos⟩ = 0) := by
  constructor
  · exact (metrics_perfect_and_zero_support (fun _ _ => true) (fun _ _ => true)
      ⟨0, one_pos⟩).1 ⟨rfl, ⟨0, one_pos⟩, rfl⟩
  · exact (metrics_perfect_and_zero_support (fun _ _ => false) (fun _ _ => true)
      ⟨0, one_pos⟩).2 (fun _ => rfl)

/-! ## Basic lemmas about the loss primitives -/

theorem klDivPoint_zero (x : ℝ) : klDivPoint x 0 = 0 := by
  simp [klDivPoint]

/-- Closed form of the pointwise BCE-with-logits:
`log (1 + exp z) - z * y`. -/
theorem bcePoint_eq (z y : ℝ) : bcePoint z y = Real.log (1 + Real.exp z) - z * y := by
  have h2 : (0:ℝ) < 1 + Real.exp z := by positivity
  have hs : sigmoid z = Real.exp z / (1 + Real.exp z) := by
    rw [sigmoid, Real.exp_neg]
    rw [div_eq_div_iff (by positivity) (by positivity)]
    field_simp
    ring
  have hlogs : Real.log (sigmoid z) = z - Real.log (1 + Real.exp z) := by
    rw [hs, Real.log_div (Real.exp_ne_zero z) h2.ne', Real.log_exp]
  have hone : 1 - sigmoid z = 1 / (1 + Real.exp z) := by
    rw [hs]
    field_simp
  have hlog1 : Real.log (1 - sigmoid z) = -Real.log (1 + Real.exp z) := by
    rw [hone, Real.log_div one_ne_zero h2.ne', Real.log_one, zero_sub]
  rw [bcePoint, hlogs, hlog1]
  ring

/-- The loss `kd_loss` is its KL component weighted by `alpha_kl` plus its
BCE component weighted by `alpha_ce`. -/
theorem kd_loss_eq_terms {B n : ℕ} (z p y : Fin B → Fin n → ℝ) (t a c : ℝ) :
    kd_loss z p y t a c = a * klTerm z p t + c * ceTerm z y := rfl

/-! ## Claim C1: the loss decomposition -/

/-- C1: for every batch of student logits, teacher vectors, supervision
targets, temperature T > 0 and weights, the distillation loss equals
`alphaKL * T² * KL_batchmean(log_softmax(studentLogits / T), teacherSoft)
 + alphaCE * BCEWithLogits_mean(studentLogits, supervisionTarget)`,
where `teacherSoft` raises each teacher probability to the power `1/T` and
divides by the per-example sum floored at `1e-9`. -/
theorem kd_loss_decomposition {B n : ℕ} (z p y : Fin B → Fin n → ℝ)
    (t a c : ℝ) (ht : 0 < t) :
    kd_loss z p y t a c =
      a * t ^ 2 *
        klBatchmeanSpec (fun b i => logSoftmax (fun j => z b j / t) i)
          (teacherSoftSpec p t) +
      c * bceMeanSpec z y := by
  simp only [kd_loss, klBatchmeanSpec, bceMeanSpec, teacherSoftSpec, teacherSoft]
  ring

theorem kd_loss_decomposition_witness :
    (0:ℝ) < 1 ∧
    kd_loss (fun (_ : Fin 1) (_ : Fin 1) => (1:ℝ)) (fun _ _ => 1) (fun _ _ => 1)
        1 (7/10) (3/10) =
      (7/10) * (1:ℝ) ^ 2 *
        klBatchmeanSpec (fun b i => logSoftmax (fun j => (1:ℝ) / 1) i)
          (teacherSoftSpec (fun (_ : Fin 1) (_ : Fin 1) => (1:ℝ)) 1) +
      (3/10) * bceMeanSpec (fun (_ : Fin 1) (_ : Fin 1) => (1:ℝ)) (fun _ _ => 1) :=
  ⟨one_pos, kd_loss_decomposition (fun _ _ => 1) (fun _ _ => 1) (fun _ _ => 1)
    1 (7/10) (3/10) one_pos⟩

/-! ## Claim C10: all-zero teacher vectors -/

/-- C10: for a batch whose teacher probability vectors are all zero, the
sharpened distribution `teacher_soft` is the all-zero vector (the `1e-9`
clamp supplies the denominator), the KL term is exactly 0, and the
distillation loss equals `alpha_ce` times the BCE term alone. -/
theorem kd_loss_zero_teacher {B n : ℕ} (z p y : Fin B → Fin n → ℝ)
    (t a c : ℝ) (ht : 0 < t) (hzero : ∀ b i, p b i = 0) :
    (∀ b i, teacherSoft (p b) t i = 0) ∧ klTerm z p t = 0 ∧
      kd_loss z p y t a c = c * ceTerm z y := by
  have hexp : (1:ℝ) / t ≠ 0 := (one_div_pos.mpr ht).ne'
  have hsoft : ∀ b i, teacherSoft (p b) t i = 0 := by
    intro b i
    rw [teacherSoft, hzero b i, Real.zero_rpow hexp, zero_div]
  have hkl : klTerm z p t = 0 := by
    rw [klTerm]
    rw [Finset.sum_eq_zero fun b _ => Finset.sum_eq_zero fun i _ => by
      rw [hsoft b i, klDivPoint_zero]]
    simp
  refine ⟨hsoft, hkl, ?_⟩
  rw [kd_loss_eq_terms, hkl, mul_zero, zero_add]

theorem kd_loss_zero_teacher_witness :
    (0:ℝ) < 1 ∧
    klTerm (fun (_ : Fin 1) (_ : Fin 1) => (0:ℝ)) (fun _ _ => 0) 1 = 0 ∧
    kd_loss (fun (_ : Fin 1) (_ : Fin 1) => (0:ℝ)) (fun _ _ => 0) (fun _ _ => 0)
        1 (7/10) (3/10) =
      (3/10) * ceTerm (fun (_ : Fin 1) (_ : Fin 1) => (0:ℝ)) (fun _ _ => 0) := by
  have h := kd_loss_zero_teacher (fun (_ : Fin 1) (_ : Fin 1) => (0:ℝ))
    (fun _ _ => 0) (fun _ _ => 0) 1 (7/10) (3/10) one_pos (fun _ _ => rfl)
  exact ⟨one_pos, h.2.1, h.2.2⟩

/-! ## Non-negativity machinery for the loss (claim C4) -/

/-- Pointwise Gibbs bound: `target - exp input ≤ klDivPoint input target`
for non-negative targets. -/
theorem klDivPoint_ge (lq pv : ℝ) (hp : 0 ≤ pv) :
    pv - Real.exp lq ≤ klDivPoint lq pv := by
  rcases eq_or_lt_of_le hp with h | h
  · rw [klDivPoint, if_neg (by rw [← h]; exact lt_irrefl 0)]
    have := Real.exp_pos lq
    linarith [h.symm ▸ le_refl pv]
  · rw [klDivPoint, if_pos h]
    have h1 : Real.log (Real.exp lq / pv) ≤ Real.exp lq / pv - 1 :=
      Real.log_le_sub_one_of_pos (by positivity)
    have h2 : Real.log (Real.exp lq / pv) = lq - Real.log pv := by
      rw [Real.log_div (Real.exp_ne_zero lq) h.ne', Real.log_exp]
    rw [h2] at h1
    have h3 := mul_le_mul_of_nonneg_left h1 h.le
    have h4 : pv * (Real.exp lq / pv - 1) = Real.exp lq - pv := by
      field_simp
    rw [h4] at h3
    have h5 : pv * (Real.log pv - lq) = -(pv * (lq - Real.log pv)) := by ring
    rw [h5]
    linarith

/-- The softmax probabilities carried by `logSoftmax` have total mass at
most 1 (exactly 1 for `n > 0`, and 0 for an empty row). -/
theorem sum_exp_logSoftmax_le_one {n : ℕ} (w : Fin n → ℝ) :
    ∑ i, Real.exp (logSoftmax w i) ≤ 1 := by
  rcases Nat.eq_zero_or_pos n with hn | hn
  · subst hn
    simp
  · have hne : Nonempty (Fin n) := ⟨⟨0, hn⟩⟩
    have hS : 0 < ∑ j, Real.exp (w j) :=
      Finset.sum_pos (fun j _ => Real.exp_pos (w j)) Finset.univ_nonempty
    have : ∀ i, Real.exp (logSoftmax w i) = Real.exp (w i) / ∑ j, Real.exp (w j) := by
      intro i
      rw [logSoftmax, Real.exp_sub, Real.exp_log hS]
    rw [Finset.sum_congr rfl fun i _ => this i, ← Finset.sum_div,
      div_self hS.ne']

/-- Each sharpened-teacher entry is non-negative when the raw entry is. -/
theorem teacherSoft_nonneg {n : ℕ} (p : Fin n → ℝ) (t : ℝ) (i : Fin n)
    (hp : 0 ≤ p i) : 0 ≤ teacherSoft p t i := by
  rw [teacherSoft]
  have hden : (0:ℝ) < max (∑ j, p j ^ (1 / t)) 1e-9 :=
    lt_of_lt_of_le (by norm_num) (le_max_right _ _)
  exact div_nonneg (Real.rpow_nonneg hp _) hden.le

/-- When the sharpened row mass reaches the `1e-9` floor, the clamp is
inactive and `teacher_soft` is an exact probability vector. -/
theorem teacherSoft_sum_one {n : ℕ} (p : Fin n → ℝ) (t : ℝ)
    (hS : 1e-9 ≤ ∑ j, p j ^ (1 / t)) :
    ∑ i, teacherSoft p t i = 1 := by
  have hpos : (0:ℝ) < ∑ j, p j ^ (1 / t) := lt_of_lt_of_le (by norm_num) hS
  simp only [teacherSoft, max_eq_left hS]
  rw [← Finset.sum_div, div_self hpos.ne']

/-- Row-level Gibbs inequality: the KL sum of a probability row against
log-probabilities of total mass at most 1 is non-negative. -/
theorem sum_klDivPoint_nonneg {n : ℕ} (lq pr : Fin n → ℝ)
    (hp : ∀ i, 0 ≤ pr i) (hsum : ∑ i, pr i = 1)
    (hq : ∑ i, Real.exp (lq i) ≤ 1) :
    0 ≤ ∑ i, klDivPoint (lq i) (pr i) := by
  have h := Finset.sum_le_sum fun i (_ : i ∈ Finset.univ) =>
    klDivPoint_ge (lq i) (pr i) (hp i)
  rw [Finset.sum_sub_distrib, hsum] at h
  linarith

/-- The pointwise BCE-with-logits is non-negative for targets in [0,1]. -/
theorem bcePoint_nonneg (z y : ℝ) (hy0 : 0 ≤ y) (hy1 : y ≤ 1) :
    0 ≤ bcePoint z y := by
  rw [bcePoint_eq]
  have hlt : Real.exp z < 1 + Real.exp z := by linarith [Real.exp_pos z]
  have hz1 : z ≤ Real.log (1 + Real.exp z) := by
    have := Real.log_le_log (Real.exp_pos z) hlt.le
    rwa [Real.log_exp] at this
  have h0 : 0 ≤ Real.log (1 + Real.exp z) :=
    Real.log_nonneg (by linarith [Real.exp_pos z])
  rcases le_or_lt z 0 with hz | hz
  · have hzy : z * y ≤ 0 := mul_nonpos_iff.mpr (Or.inr ⟨hz, hy0⟩)
    linarith
  · have hzy : z * y ≤ z := mul_le_of_le_one_right hz.le hy1
    linarith

/-! ## Claim C4 (amended): non-negativity of the loss -/

/-- C4 (amended): for finite student logits, teacher entries ≥ 0,
supervision targets in [0,1] and non-negative weights, the distillation loss
is non-negative provided each example's sharpened teacher mass
`∑ i, p i ^ (1/T)` either vanishes identically (all-zero teacher row) or
reaches the `1e-9` clamp floor.  (Without that proviso the claim fails: see
the counterexample, where a positive mass strictly below the floor leaves
`teacher_soft` sub-normalized and the KL term negative.)  The loss is a total
function of its real inputs, so no error or NaN arises in the embedding. -/
theorem kd_loss_nonneg {B n : ℕ} (z p y : Fin B → Fin n → ℝ) (t a c : ℝ)
    (ht : 0 < t) (ha : 0 ≤ a) (hc : 0 ≤ c)
    (hp : ∀ b i, 0 ≤ p b i) (hy : ∀ b i, 0 ≤ y b i ∧ y b i ≤ 1)
    (hrows : ∀ b, (∀ i, p b i = 0) ∨ 1e-9 ≤ ∑ i, p b i ^ (1 / t)) :
    0 ≤ kd_loss z p y t a c := by
  rw [kd_loss_eq_terms]
  have hexp : (1:ℝ) / t ≠ 0 := (one_div_pos.mpr ht).ne'
  have hkl : 0 ≤ klTerm z p t := by
    rw [klTerm]
    have hinner : 0 ≤ ∑ b, ∑ i,
        klDivPoint (logSoftmax (fun j => z b j / t) i) (teacherSoft (p b) t i) := by
      refine Finset.sum_nonneg fun b _ => ?_
      rcases hrows b with hz | hS
      · refine le_of_eq (Finset.sum_eq_zero fun i _ => ?_).symm
        rw [teacherSoft, hz i, Real.zero_rpow hexp, zero_div, klDivPoint_zero]
      · exact sum_klDivPoint_nonneg _ _
          (fun i => teacherSoft_nonneg (p b) t i (hp b i))
          (teacherSoft_sum_one (p b) t hS)
          (sum_exp_logSoftmax_le_one _)
    have hB : (0:ℝ) ≤ (B:ℝ) := Nat.cast_nonneg B
    exact mul_nonneg (div_nonneg hinner hB) (mul_self_nonneg t)
  have hce : 0 ≤ ceTerm z y := by
    rw [ceTerm]
    refine div_nonneg (Finset.sum_nonneg fun b _ => Finset.sum_nonneg fun i _ =>
      bcePoint_nonneg _ _ (hy b i).1 (hy b i).2) (by positivity)
  exact add_nonneg (mul_nonneg ha hkl) (mul_nonneg hc hce)

theorem kd_loss_nonneg_witness :
    (0:ℝ) < 1 ∧
    0 ≤ kd_loss (fun (_ : Fin 1) (_ : Fin 1) => (0:ℝ)) (fun _ _ => 1)
      (fun _ _ => 0) 1 (7/10) (3/10) := by
  refine ⟨one_pos, ?_⟩
  refine kd_loss_nonneg (fun _ _ => 0) (fun _ _ => 1) (fun _ _ => 0) 1 (7/10) (3/10)
    one_pos (by norm_num) (by norm_num) (fun b i => zero_le_one)
    (fun b i => ⟨le_refl 0, zero_le_one⟩) (fun b => Or.inr ?_)
  rw [Fin.sum_univ_one]
  rw [show (1:ℝ) / 1 = 1 by norm_num, Real.rpow_one]
  norm_num

/-- C4 counterexample: at temperature 1 with the default weights 0.7/0.3,
student logits (40, -40), teacher vector (9e-10, 0) — entries in [0,1] with
positive sharpened mass 9e-10 strictly below the 1e-9 clamp floor — and
supervision target (1, 0), the distillation loss is strictly negative:
the clamp leaves `teacher_soft = (0.9, 0)` sub-normalized, making the KL
term about `0.9 * log 0.9 < 0` while the BCE term is nearly 0. -/
theorem kd_loss_negative_counterexample :
    kd_loss (fun (_ : Fin 1) => ![(40:ℝ), -40]) (fun _ => ![(9e-10:ℝ), 0])
      (fun _ => ![(1:ℝ), 0]) 1 (7/10) (3/10) < 0 := by
  rw [kd_loss_eq_terms]
  have hklT : klTerm (fun (_ : Fin 1) => ![(40:ℝ), -40]) (fun _ => ![(9e-10:ℝ), 0]) 1 =
      (9/10) * (Real.log (9/10) - (40 - Real.log (Real.exp 40 + Real.exp (-40)))) := by
    have hw : (fun j => (![(40:ℝ), -40]) j / 1) = ![(40:ℝ), -40] := by
      funext j
      rw [div_one]
    have hS : (∑ j : Fin 2, (![(9e-10:ℝ), 0]) j ^ ((1:ℝ) / 1)) = 9e-10 := by
      rw [Fin.sum_univ_two]
      norm_num [Real.rpow_one]
    have hts0 : teacherSoft (![(9e-10:ℝ), 0]) 1 0 = 9/10 := by
      rw [teacherSoft, hS, max_eq_right (by norm_num : (9e-10:ℝ) ≤ 1e-9)]
      norm_num [Real.rpow_one]
    have hts1 : teacherSoft (![(9e-10:ℝ), 0]) 1 1 = 0 := by
      rw [teacherSoft]
      norm_num [Real.rpow_one]
    have hls0 : logSoftmax (![(40:ℝ), -40]) 0 =
        40 - Real.log (Real.exp 40 + Real.exp (-40)) := by
      rw [logSoftmax, Fin.sum_univ_two]
      norm_num
    rw [klTerm, Fin.sum_univ_one, Fin.sum_univ_two, hw, hts0, hts1, hls0]
    rw [klDivPoint, if_pos (by norm_num : (0:ℝ) < 9/10)]
    rw [klDivPoint, if_neg (lt_irrefl 0)]
    norm_num
  have hceT : ceTerm (fun (_ : Fin 1) => ![(40:ℝ), -40]) (fun _ => ![(1:ℝ), 0]) =
      (Real.log (1 + Real.exp 40) - 40 + Real.log (1 + Real.exp (-40))) / 2 := by
    rw [ceTerm, Fin.sum_univ_one, Fin.sum_univ_two]
    norm_num [bcePoint_eq]
  rw [hklT, hceT]
  have hlog9 : Real.log (9/10) ≤ -(1/10) := by
    have := Real.log_le_sub_one_of_pos (show (0:ℝ) < 9/10 by norm_num)
    linarith
  have h81 : Real.exp (-80:ℝ) ≤ 1/81 := by
    rw [Real.exp_neg]
    have h : (81:ℝ) ≤ Real.exp 80 := by
      have := Real.add_one_le_exp (80:ℝ)
      linarith
    have := inv_anti₀ (by norm_num : (0:ℝ) < 81) h
    linarith
  have h41 : Real.exp (-40:ℝ) ≤ 1/41 := by
    rw [Real.exp_neg]
    have h : (41:ℝ) ≤ Real.exp 40 := by
      have := Real.add_one_le_exp (40:ℝ)
      linarith
    have := inv_anti₀ (by norm_num : (0:ℝ) < 41) h
    linarith
  have hE : Real.log (Real.exp 40 + Real.exp (-40)) ≤ 40 + Real.exp (-80) := by
    have hmul : Real.exp 40 + Real.exp (-40) = Real.exp 40 * (1 + Real.exp (-80)) := by
      rw [mul_add, mul_one, ← Real.exp_add]
      norm_num
    rw [hmul, Real.log_mul (Real.exp_ne_zero _) (by positivity), Real.log_exp]
    have := Real.log_le_sub_one_of_pos (show (0:ℝ) < 1 + Real.exp (-80) by positivity)
    linarith
  have hA : Real.log (1 + Real.exp (40:ℝ)) ≤ 40 + Real.exp (-40) := by
    have hmul : (1:ℝ) + Real.exp 40 = Real.exp 40 * (1 + Real.exp (-40)) := by
      rw [mul_add, mul_one, ← Real.exp_add]
      norm_num
      ring
    rw [hmul, Real.log_mul (Real.exp_ne_zero _) (by positivity), Real.log_exp]
    have := Real.log_le_sub_one_of_pos (show (0:ℝ) < 1 + Real.exp (-40) by positivity)
    linarith
  have hLB : Real.log (1 + Real.exp (-40:ℝ)) ≤ Real.exp (-40) := by
    have := Real.log_le_sub_one_of_pos (show (0:ℝ) < 1 + Real.exp (-40) by positivity)
    linarith
  linarith

/-! ## Claim C5 (amended): scale invariance of the KL term -/

/-- C5 (amended): scaling every teacher entry by the same positive constant
`c` before the power/renormalize step leaves the KL term unchanged, provided
the sharpened sums of both the original and the scaled rows reach the `1e-9`
clamp floor (so that both rows are exactly renormalized).  (Without that
proviso the claim fails: see the counterexample, where scaling moves a row
across the floor.) -/
theorem klTerm_scale_invariant {B n : ℕ} (z p : Fin B → Fin n → ℝ) (t c : ℝ)
    (ht : 0 < t) (hc : 0 < c) (hp : ∀ b i, 0 ≤ p b i)
    (h1 : ∀ b, 1e-9 ≤ ∑ i, p b i ^ (1 / t))
    (h2 : ∀ b, 1e-9 ≤ ∑ i, (c * p b i) ^ (1 / t)) :
    klTerm z (fun b i => c * p b i) t = klTerm z p t := by
  have key : ∀ b i, teacherSoft (fun i => c * p b i) t i = teacherSoft (p b) t i := by
    intro b i
    have hcp : ∀ j, (c * p b j) ^ (1 / t) = c ^ (1 / t) * p b j ^ (1 / t) :=
      fun j => Real.mul_rpow hc.le (hp b j)
    have hsum : ∑ j, (c * p b j) ^ (1 / t) = c ^ (1 / t) * ∑ j, p b j ^ (1 / t) := by
      rw [Finset.mul_sum]
      exact Finset.sum_congr rfl fun j _ => hcp j
    have hcpos : (0:ℝ) < c ^ (1 / t) := Real.rpow_pos_of_pos hc _
    rw [teacherSoft, teacherSoft, max_eq_left (h2 b), max_eq_left (h1 b),
      hsum, hcp i, mul_div_mul_left _ _ hcpos.ne']
  simp only [klTerm]
  rw [Finset.sum_congr rfl fun b (_ : b ∈ Finset.univ) =>
    Finset.sum_congr rfl fun i (_ : i ∈ Finset.univ) => by rw [key b i]]

theorem klTerm_scale_invariant_witness :
    (0:ℝ) < 2 ∧
    klTerm (fun (_ : Fin 1) (_ : Fin 1) => (0:ℝ))
        (fun b i => 2 * (fun (_ : Fin 1) (_ : Fin 1) => (1:ℝ)) b i) 1 =
      klTerm (fun (_ : Fin 1) (_ : Fin 1) => (0:ℝ)) (fun _ _ => (1:ℝ)) 1 := by
  refine ⟨by norm_num, ?_⟩
  refine klTerm_scale_invariant (fun _ _ => 0) (fun _ _ => 1) 1 2 one_pos
    (by norm_num) (fun b i => zero_le_one) (fun b => ?_) (fun b => ?_)
  · rw [Fin.sum_univ_one, show (1:ℝ) / 1 = 1 by norm_num, Real.rpow_one]
    norm_num
  · rw [Fin.sum_univ_one, show (1:ℝ) / 1 = 1 by norm_num, Real.rpow_one]
    norm_num

/-- C5 counterexample: with teacher row (5e-10, 0), temperature 1, uniform
student logits and scale factor c = 4, the unscaled sharpened sum 5e-10 is
clamped to 1e-9 while the scaled sum 2e-9 is not, so the KL term changes
from 0 to log 2. -/
theorem klTerm_scale_counterexample :
    klTerm (fun (_ : Fin 1) (_ : Fin 2) => (0:ℝ))
        (fun _ i => 4 * (![(5e-10:ℝ), 0]) i) 1 ≠
      klTerm (fun (_ : Fin 1) (_ : Fin 2) => (0:ℝ)) (fun _ => ![(5e-10:ℝ), 0]) 1 := by
  have hw : (fun j => (0:ℝ) / 1) = fun (_ : Fin 2) => (0:ℝ) := by
    funext j
    rw [div_one]
  have hls : ∀ i : Fin 2, logSoftmax (fun (_ : Fin 2) => (0:ℝ)) i = -Real.log 2 := by
    intro i
    rw [logSoftmax, Fin.sum_univ_two]
    norm_num
  have hrhs : klTerm (fun (_ : Fin 1) (_ : Fin 2) => (0:ℝ))
      (fun _ => ![(5e-10:ℝ), 0]) 1 = 0 := by
    have hS : (∑ j : Fin 2, (![(5e-10:ℝ), 0]) j ^ ((1:ℝ) / 1)) = 5e-10 := by
      rw [Fin.sum_univ_two]
      norm_num [Real.rpow_one]
    have hts0 : teacherSoft (![(5e-10:ℝ), 0]) 1 0 = 1/2 := by
      rw [teacherSoft, hS, max_eq_right (by norm_num : (5e-10:ℝ) ≤ 1e-9)]
      norm_num [Real.rpow_one]
    have hts1 : teacherSoft (![(5e-10:ℝ), 0]) 1 1 = 0 := by
      rw [teacherSoft]
      norm_num [Real.rpow_one]
    rw [klTerm, Fin.sum_univ_one, Fin.sum_univ_two, hw, hts0, hts1, hls 0, hls 1]
    rw [klDivPoint, if_pos (by norm_num : (0:ℝ) < 1/2)]
    rw [klDivPoint, if_neg (lt_irrefl 0)]
    rw [one_div, Real.log_inv]
    norm_num
  have hlhs : klTerm (fun (_ : Fin 1) (_ : Fin 2) => (0:ℝ))
      (fun _ i => 4 * (![(5e-10:ℝ), 0]) i) 1 = Real.log 2 := by
    have hS : (∑ j : Fin 2, (4 * (![(5e-10:ℝ), 0]) j) ^ ((1:ℝ) / 1)) = 2e-9 := by
      rw [Fin.sum_univ_two]
      norm_num [Real.rpow_one]
    have hts0 : teacherSoft (fun j => 4 * (![(5e-10:ℝ), 0]) j) 1 0 = 1 := by
      rw [teacherSoft, hS, max_eq_left (by norm_num : (1e-9:ℝ) ≤ 2e-9)]
      norm_num [Real.rpow_one]
    have hts1 : teacherSoft (fun j => 4 * (![(5e-10:ℝ), 0]) j) 1 1 = 0 := by
      rw [teacherSoft]
      norm_num [Real.rpow_one]
    rw [klTerm, Fin.sum_univ_one, Fin.sum_univ_two, hw, hts0, hts1, hls 0, hls 1]
    rw [klDivPoint, if_pos one_pos]
    rw [klDivPoint, if_neg (lt_irrefl 0)]
    rw [Real.log_one]
    norm_num
  rw [hlhs, hrhs]
  exact (Real.log_pos one_lt_two).ne'

/-! ## Entropy/temperature machinery (claim C6) -/

/-- Per-term Gibbs bound for two positive masses. -/
theorem klRow_term_ge (qv rv : ℝ) (hq : 0 < qv) (hr : 0 < rv) :
    qv - rv ≤ qv * (Real.log qv - Real.log rv) := by
  have h1 := Real.log_le_sub_one_of_pos (div_pos hr hq)
  rw [Real.log_div hr.ne' hq.ne'] at h1
  have h2 := mul_le_mul_of_nonneg_left h1 hq.le
  have h3 : qv * (rv / qv - 1) = rv - qv := by field_simp
  rw [h3] at h2
  have h4 : qv * (Real.log rv - Real.log qv) =
      -(qv * (Real.log qv - Real.log rv)) := by ring
  rw [h4] at h2
  linarith

/-- Strict per-term Gibbs bound when the two masses differ. -/
theorem klRow_term_gt (qv rv : ℝ) (hq : 0 < qv) (hr : 0 < rv) (hne : qv ≠ rv) :
    qv - rv < qv * (Real.log qv - Real.log rv) := by
  have hd1 : rv / qv ≠ 1 := fun h => hne ((div_eq_one_iff_eq hq.ne').mp h).symm
  have h1 := Real.log_lt_sub_one_of_pos (div_pos hr hq) hd1
  rw [Real.log_div hr.ne' hq.ne'] at h1
  have h2 := mul_lt_mul_of_pos_left h1 hq
  have h3 : qv * (rv / qv - 1) = rv - qv := by field_simp
  rw [h3] at h2
  have h4 : qv * (Real.log rv - Real.log qv) =
      -(qv * (Real.log qv - Real.log rv)) := by ring
  rw [h4] at h2
  linarith

/-- Gibbs inequality over a support set: the KL sum of two probability
vectors supported on `F` is non-negative. -/
theorem sum_klRow_nonneg {n : ℕ} (F : Finset (Fin n)) (a b : Fin n → ℝ)
    (ha : ∀ i ∈ F, 0 < a i) (hb : ∀ i ∈ F, 0 < b i)
    (has : ∑ i in F, a i = 1) (hbs : ∑ i in F, b i = 1) :
    0 ≤ ∑ i in F, a i * (Real.log (a i) - Real.log (b i)) := by
  have h := Finset.sum_le_sum fun i hi => klRow_term_ge (a i) (b i) (ha i hi) (hb i hi)
  rw [Finset.sum_sub_distrib, has, hbs] at h
  linarith

/-- Strict Gibbs inequality: positive whenever the two vectors differ at a
point of the support. -/
theorem sum_klRow_pos {n : ℕ} (F : Finset (Fin n)) (a b : Fin n → ℝ)
    (ha : ∀ i ∈ F, 0 < a i) (hb : ∀ i ∈ F, 0 < b i)
    (has : ∑ i in F, a i = 1) (hbs : ∑ i in F, b i = 1)
    (i0 : Fin n) (hi0 : i0 ∈ F) (hne : a i0 ≠ b i0) :
    0 < ∑ i in F, a i * (Real.log (a i) - Real.log (b i)) := by
  have h := Finset.sum_lt_sum
    (fun i hi => klRow_term_ge (a i) (b i) (ha i hi) (hb i hi))
    ⟨i0, hi0, klRow_term_gt (a i0) (b i0) (ha i0 hi0) (hb i0 hi0) hne⟩
  rw [Finset.sum_sub_distrib, has, hbs] at h
  linarith

/-- A sum over all indices equals the sum over the support of `p` when the
summand vanishes off that support. -/
theorem sum_eq_sum_support {n : ℕ} (p f : Fin n → ℝ) (hp0 : ∀ i, 0 ≤ p i)
    (h : ∀ i, p i = 0 → f i = 0) :
    ∑ i, f i = ∑ i in Finset.univ.filter (fun i => 0 < p i), f i := by
  symm
  refine Finset.sum_filter_of_ne fun i _ hfi => ?_
  rcases eq_or_lt_of_le (hp0 i) with hz | hpos
  · exact absurd (h i hz.symm) hfi
  · exact hpos

/-! ## Claim C6 (amended): entropy grows strictly with temperature -/

/-- C6 (amended): for a teacher vector with entries in [0,1] that is
non-uniform on its support (two positive entries with distinct values) and
whose sharpened mass at the lower temperature reaches the `1e-9` clamp
floor, the Shannon entropy of `teacherSoft` is strictly increasing in the
temperature.  (Both extra hypotheses are forced by the code: a vector that
is non-uniform only through zero entries, such as (1,1,0), keeps a constant
renormalized distribution — see the counterexample — and below the clamp
floor `teacherSoft` is not renormalized at all.) -/
theorem teacherSoft_entropy_strict_mono {n : ℕ} (p : Fin n → ℝ) (t1 t2 : ℝ)
    (hp0 : ∀ i, 0 ≤ p i) (hp1 : ∀ i, p i ≤ 1)
    (i0 j0 : Fin n) (hi0 : 0 < p i0) (hj0 : 0 < p j0) (hnep : p i0 ≠ p j0)
    (ht1 : 0 < t1) (h12 : t1 < t2)
    (hS : 1e-9 ≤ ∑ i, p i ^ (1 / t1)) :
    shannonEntropy (teacherSoft p t1) < shannonEntropy (teacherSoft p t2) := by
  have ht2 : 0 < t2 := ht1.trans h12
  have hγ0 : 0 < t1 / t2 := div_pos ht1 ht2
  have hγ1 : t1 / t2 < 1 := (div_lt_one ht2).mpr h12
  set γ := t1 / t2 with hγdef
  set u : Fin n → ℝ := fun i => p i ^ (1 / t1) with hu
  set v : Fin n → ℝ := fun i => p i ^ (1 / t2) with hv
  have hexp1 : (1:ℝ) / t1 ≠ 0 := (one_div_pos.mpr ht1).ne'
  have hexp2 : (1:ℝ) / t2 ≠ 0 := (one_div_pos.mpr ht2).ne'
  have hu0 : ∀ i, 0 ≤ u i := fun i => Real.rpow_nonneg (hp0 i) _
  have hv0 : ∀ i, 0 ≤ v i := fun i => Real.rpow_nonneg (hp0 i) _
  have huz : ∀ i, p i = 0 → u i = 0 := fun i h => by
    simp only [hu]
    rw [h]
    exact Real.zero_rpow hexp1
  have hvz : ∀ i, p i = 0 → v i = 0 := fun i h => by
    simp only [hv]
    rw [h]
    exact Real.zero_rpow hexp2
  have hupos : ∀ i, 0 < p i → 0 < u i := fun i h => Real.rpow_pos_of_pos h _
  have hvpos : ∀ i, 0 < p i → 0 < v i := fun i h => Real.rpow_pos_of_pos h _
  have hle : ∀ i, u i ≤ v i := by
    intro i
    rcases eq_or_lt_of_le (hp0 i) with h | h
    · rw [huz i h.symm, hvz i h.symm]
    · exact Real.rpow_le_rpow_of_exponent_ge h (hp1 i)
        (one_div_le_one_div_of_le ht1 h12.le)
  set S1 := ∑ i, u i with hS1def
  set S2 := ∑ i, v i with hS2def
  have hSu : (1e-9:ℝ) ≤ S1 := hS
  have hS1pos : (0:ℝ) < S1 := lt_of_lt_of_le (by norm_num) hSu
  have hS12 : S1 ≤ S2 := Finset.sum_le_sum fun i _ => hle i
  have hSv : (1e-9:ℝ) ≤ S2 := le_trans hSu hS12
  have hS2pos : (0:ℝ) < S2 := lt_of_lt_of_le (by norm_num) hSv
  have hSu' : (1e-9:ℝ) ≤ ∑ j, p j ^ (1 / t1) := hSu
  have hSv' : (1e-9:ℝ) ≤ ∑ j, p j ^ (1 / t2) := hSv
  have hqdef : ∀ i, teacherSoft p t1 i = u i / S1 := fun i => by
    rw [teacherSoft, max_eq_left hSu']
  have hrdef : ∀ i, teacherSoft p t2 i = v i / S2 := fun i => by
    rw [teacherSoft, max_eq_left hSv']
  set F := Finset.univ.filter (fun i => 0 < p i) with hF
  have hi0F : i0 ∈ F := Finset.mem_filter.mpr ⟨Finset.mem_univ _, hi0⟩
  have hj0F : j0 ∈ F := Finset.mem_filter.mpr ⟨Finset.mem_univ _, hj0⟩
  have hqpos : ∀ i ∈ F, 0 < u i / S1 := fun i hi =>
    div_pos (hupos i (Finset.mem_filter.mp hi).2) hS1pos
  have hrpos : ∀ i ∈ F, 0 < v i / S2 := fun i hi =>
    div_pos (hvpos i (Finset.mem_filter.mp hi).2) hS2pos
  have hsumuF : ∑ i in F, u i = S1 := (sum_eq_sum_support p u hp0 huz).symm
  have hsumvF : ∑ i in F, v i = S2 := (sum_eq_sum_support p v hp0 hvz).symm
  have hqs : ∑ i in F, u i / S1 = 1 := by
    rw [← Finset.sum_div, hsumuF, div_self hS1pos.ne']
  have hrs : ∑ i in F, v i / S2 = 1 := by
    rw [← Finset.sum_div, hsumvF, div_self hS2pos.ne']
  have hHq : shannonEntropy (teacherSoft p t1) =
      -∑ i in F, (u i / S1) * Real.log (u i / S1) := by
    rw [shannonEntropy]
    congr 1
    rw [Finset.sum_congr rfl fun i _ => by rw [hqdef i]]
    exact sum_eq_sum_support p (fun i => (u i / S1) * Real.log (u i / S1)) hp0
      (fun i h => by
        show (u i / S1) * Real.log (u i / S1) = 0
        rw [huz i h, zero_div, zero_mul])
  have hHr : shannonEntropy (teacherSoft p t2) =
      -∑ i in F, (v i / S2) * Real.log (v i / S2) := by
    rw [shannonEntropy]
    congr 1
    rw [Finset.sum_congr rfl fun i _ => by rw [hrdef i]]
    exact sum_eq_sum_support p (fun i => (v i / S2) * Real.log (v i / S2)) hp0
      (fun i h => by
        show (v i / S2) * Real.log (v i / S2) = 0
        rw [hvz i h, zero_div, zero_mul])
  set Z := S2 / S1 ^ γ with hZdef
  have hS1γpos : (0:ℝ) < S1 ^ γ := Real.rpow_pos_of_pos hS1pos γ
  have hZpos : (0:ℝ) < Z := div_pos hS2pos hS1γpos
  have huv : ∀ i, u i ^ γ = v i := by
    intro i
    simp only [hu, hv]
    rw [← Real.rpow_mul (hp0 i)]
    congr 1
    rw [hγdef]
    field_simp
  have hkey : ∀ i, v i / S2 = (u i / S1) ^ γ / Z := by
    intro i
    have h1 : (u i / S1) ^ γ = v i / S1 ^ γ := by
      rw [Real.div_rpow (hu0 i) hS1pos.le, huv i]
    rw [h1, hZdef]
    rw [div_div_div_cancel_right₀]
    exact hS1γpos.ne'
  have hlogr : ∀ i ∈ F, Real.log (v i / S2) = γ * Real.log (u i / S1) - Real.log Z := by
    intro i hi
    have hqipos : 0 < u i / S1 := hqpos i hi
    rw [hkey i, Real.log_div (Real.rpow_pos_of_pos hqipos γ).ne' hZpos.ne',
      Real.log_rpow hqipos]
  set A := ∑ i in F, (u i / S1) * Real.log (u i / S1) with hA
  set Cr := ∑ i in F, (v i / S2) * Real.log (u i / S1) with hCr
  set LZ := Real.log Z with hLZ
  have hHr2 : shannonEntropy (teacherSoft p t2) = -(γ * Cr) + LZ := by
    rw [hHr]
    have hexpand : ∑ i in F, (v i / S2) * Real.log (v i / S2)
        = γ * Cr - LZ * ∑ i in F, (v i / S2) := by
      rw [hCr, Finset.mul_sum, Finset.mul_sum, ← Finset.sum_sub_distrib]
      refine Finset.sum_congr rfl fun i hi => ?_
      rw [hlogr i hi]
      ring
    rw [hexpand, hrs]
    ring
  have hG1 : 0 ≤ ∑ i in F, (v i / S2) * (Real.log (v i / S2) - Real.log (u i / S1)) :=
    sum_klRow_nonneg F _ _ hrpos hqpos hrs hqs
  have hineq1 : 0 ≤ (γ - 1) * Cr - LZ := by
    have hexpand : ∑ i in F, (v i / S2) * (Real.log (v i / S2) - Real.log (u i / S1))
        = (γ - 1) * Cr - LZ * ∑ i in F, (v i / S2) := by
      rw [hCr, Finset.mul_sum, Finset.mul_sum, ← Finset.sum_sub_distrib]
      refine Finset.sum_congr rfl fun i hi => ?_
      rw [hlogr i hi]
      ring
    rw [hexpand, hrs, mul_one] at hG1
    exact hG1
  have hune : u i0 / S1 ≠ u j0 / S1 := by
    have huij : u i0 ≠ u j0 := by
      rcases lt_or_gt_of_ne hnep with h | h
      · exact ne_of_lt (Real.rpow_lt_rpow (hp0 i0) h (one_div_pos.mpr ht1))
      · exact ne_of_gt (Real.rpow_lt_rpow (hp0 j0) h (one_div_pos.mpr ht1))
    intro hdiv
    apply huij
    have hmul := congrArg (fun x => x * S1) hdiv
    simpa [div_mul_cancel₀, hS1pos.ne'] using hmul
  have hfix : ∀ i, 0 < p i → u i / S1 = v i / S2 → (u i / S1) ^ (1 - γ) = 1 / Z := by
    intro i hpi he
    have hqi : 0 < u i / S1 := div_pos (hupos i hpi) hS1pos
    have h2 : u i / S1 = (u i / S1) ^ γ / Z := by
      rw [← hkey i, he]
    have h3 : u i / S1 * Z = (u i / S1) ^ γ := (eq_div_iff hZpos.ne').mp h2
    have h4 : (u i / S1) ^ (1 - γ) * (u i / S1) ^ γ = u i / S1 := by
      rw [← Real.rpow_add hqi, show (1 - γ) + γ = 1 by ring, Real.rpow_one]
    have h6 : (u i / S1) ^ (1 - γ) * (u i / S1 * Z) = u i / S1 := by
      rw [h3]
      exact h4
    have h7 : (u i / S1) ^ (1 - γ) * Z = 1 := by
      apply mul_right_cancel₀ hqi.ne'
      rw [one_mul]
      calc (u i / S1) ^ (1 - γ) * Z * (u i / S1)
          = (u i / S1) ^ (1 - γ) * (u i / S1 * Z) := by ring
        _ = u i / S1 := h6
    rw [eq_div_iff hZpos.ne']
    exact h7
  have hwit : (u i0 / S1 ≠ v i0 / S2) ∨ (u j0 / S1 ≠ v j0 / S2) := by
    by_contra hcon
    push_neg at hcon
    obtain ⟨e0, e1⟩ := hcon
    have hq0 := hfix i0 hi0 e0
    have hq1 := hfix j0 hj0 e1
    have h1γ : (0:ℝ) < 1 - γ := by linarith
    rcases lt_or_gt_of_ne hune with h | h
    · have hlt := Real.rpow_lt_rpow (le_of_lt (div_pos (hupos i0 hi0) hS1pos)) h h1γ
      rw [hq0, hq1] at hlt
      exact lt_irrefl _ hlt
    · have hlt := Real.rpow_lt_rpow (le_of_lt (div_pos (hupos j0 hj0) hS1pos)) h h1γ
      rw [hq0, hq1] at hlt
      exact lt_irrefl _ hlt
  have hG2 : 0 < ∑ i in F, (u i / S1) * (Real.log (u i / S1) - Real.log (v i / S2)) := by
    rcases hwit with h | h
    · exact sum_klRow_pos F _ _ hqpos hrpos hqs hrs i0 hi0F h
    · exact sum_klRow_pos F _ _ hqpos hrpos hqs hrs j0 hj0F h
  have hineq2 : 0 < (1 - γ) * A + LZ := by
    have hexpand : ∑ i in F, (u i / S1) * (Real.log (u i / S1) - Real.log (v i / S2))
        = (1 - γ) * A + LZ * ∑ i in F, (u i / S1) := by
      rw [hA, Finset.mul_sum, Finset.mul_sum, ← Finset.sum_add_distrib]
      refine Finset.sum_congr rfl fun i hi => ?_
      rw [hlogr i hi]
      ring
    rw [hexpand, hqs, mul_one] at hG2
    exact hG2
  rw [hHq, hHr2]
  have h1γ : (0:ℝ) < 1 - γ := by linarith
  have h1' : 0 ≤ γ * ((γ - 1) * Cr - LZ) := mul_nonneg hγ0.le hineq1
  have hsum2 : 0 < (1 - γ) * ((A - γ * Cr) + LZ) := by
    have hid : (1 - γ) * ((A - γ * Cr) + LZ)
        = ((1 - γ) * A + LZ) + γ * ((γ - 1) * Cr - LZ) := by ring
    rw [hid]
    exact add_pos_of_pos_of_nonneg hineq2 h1'
  have hfac : 0 < (A - γ * Cr) + LZ := by
    by_contra hcon
    push_neg at hcon
    nlinarith [hsum2, h1γ, hcon]
  linarith

theorem teacherSoft_entropy_strict_mono_witness :
    (0:ℝ) < 1 ∧ (1:ℝ) < 2 ∧
    shannonEntropy (teacherSoft (![(1:ℝ), 1/2]) 1) <
      shannonEntropy (teacherSoft (![(1:ℝ), 1/2]) 2) := by
  refine ⟨one_pos, one_lt_two, ?_⟩
  refine teacherSoft_entropy_strict_mono (![(1:ℝ), 1/2]) 1 2 ?_ ?_ 0 1 ?_ ?_ ?_
    one_pos one_lt_two ?_
  · intro i
    fin_cases i <;> norm_num
  · intro i
    fin_cases i <;> norm_num
  · norm_num
  · norm_num
  · norm_num
  · rw [Fin.sum_univ_two, show (1:ℝ) / 1 = 1 by norm_num, Real.rpow_one,
      Real.rpow_one]
    norm_num

/-- C6 counterexample: the vector (1, 1, 0) has entries in [0,1] and is
non-uniform as a vector, yet its renormalized sharpened distribution is
(1/2, 1/2, 0) at every temperature, so its entropy does not strictly
increase from T = 1 to T = 2: non-uniformity off the support does not
suffice. -/
theorem teacherSoft_entropy_counterexample :
    (∀ i, 0 ≤ (![(1:ℝ), 1, 0]) i ∧ (![(1:ℝ), 1, 0]) i ≤ 1) ∧
    (![(1:ℝ), 1, 0]) 0 ≠ (![(1:ℝ), 1, 0]) 2 ∧
    (0:ℝ) < 1 ∧ (1:ℝ) < 2 ∧
    ¬ (shannonEntropy (teacherSoft (![(1:ℝ), 1, 0]) 1) <
        shannonEntropy (teacherSoft (![(1:ℝ), 1, 0]) 2)) := by
  have h0 : (![(1:ℝ), 1, 0]) 0 = 1 := rfl
  have h2 : (![(1:ℝ), 1, 0]) 2 = 0 := rfl
  refine ⟨?_, by rw [h0, h2]; norm_num, one_pos, one_lt_two, ?_⟩
  · intro i
    fin_cases i <;> norm_num
  · have heq : teacherSoft (![(1:ℝ), 1, 0]) 1 = teacherSoft (![(1:ℝ), 1, 0]) 2 := by
      funext i
      have hS1 : (∑ j : Fin 3, (![(1:ℝ), 1, 0]) j ^ ((1:ℝ) / 1)) = 2 := by
        rw [Fin.sum_univ_three]
        norm_num [Real.rpow_one]
      have hS2 : (∑ j : Fin 3, (![(1:ℝ), 1, 0]) j ^ ((1:ℝ) / 2)) = 2 := by
        rw [Fin.sum_univ_three]
        rw [show ((![(1:ℝ), 1, 0]) 0) = 1 from rfl, show ((![(1:ℝ), 1, 0]) 1) = 1 from rfl,
          show ((![(1:ℝ), 1, 0]) 2) = 0 from rfl]
        rw [Real.one_rpow, Real.zero_rpow (by norm_num : (1:ℝ)/2 ≠ 0)]
        norm_num
      rw [teacherSoft, teacherSoft, hS1, hS2]
      fin_cases i <;>
        simp [Real.one_rpow, Real.zero_rpow, (by norm_num : (1:ℝ)/1 ≠ 0),
          (by norm_num : (1:ℝ)/2 ≠ 0)]
    rw [heq]
    exact lt_irrefl _
